import Mathlib

/-!
Shallow embedding of `src/streamlit_app.py` (Staff System Extractor).

Coordinates are PDF points, modelled as rationals.  A source document is a
list of pages; a page carries its width, height and the text lines that
PyMuPDF would report (each line with its bounding box and the concatenated
span text).  The embedding follows the source line by line:

* `normStr`          : `re.sub(r"[^A-Za-z0-9]", "", s).lower()`   (lines 23, 49)
* `label_list`       : splitting of the label input on commas     (line 22)
* `is_candidate`     : the left-margin candidate filter           (lines 31-42)
* `all_labels`       : candidate collection plus sort             (lines 27-45)
* `target_labels`    : filter for the requested labels            (lines 48-49)
* `top_crop` or `bottom_crop`: the boundary rules                 (lines 76-93)
* `regions_go`       : the extraction loop with `prev_page`       (lines 73-96)
* `fill_page` or `pack_go`: the output-page packing loop          (lines 100-108)
* `run_app`          : the outcome-level control flow             (lines 20, 51-112)

Python `str.strip` is embedded as `stripStr` (ASCII whitespace), Python
substring tests as `List.isInfixOf` on character lists, and the rendered
height of a crop (`pix.height / zoom_factor`, line 98) is idealised as the
exact clip height `bottom - top`; pixmap heights are integer pixel counts
and therefore never negative, which is recorded as a hypothesis where a
statement needs it.  All definitions are structurally recursive so that
concrete runs reduce inside the kernel.
-/

attribute [local semireducible] Rat.add Rat.sub Rat.mul Rat.inv

namespace StaffExtractor

/-- One text line as reported by `page.get_text("dict")`: bounding box
`(x0, y0, x1, y1)` with `y0` the top, and the joined span text. -/
structure Line where
  x0 : ℚ
  y0 : ℚ
  x1 : ℚ
  y1 : ℚ
  text : String
deriving DecidableEq

/-- A source page: size in points and its text lines. -/
structure Page where
  width : ℚ
  height : ℚ
  lines : List Line
deriving DecidableEq

/-- A source document is the ordered list of its pages. -/
abbrev Doc := List Page

/-- Default page used only to give total meaning to out-of-range indexing. -/
def emptyPage : Page := ⟨0, 0, []⟩

/-- ASCII whitespace as stripped by Python `str.strip` on the inputs here. -/
def isSpaceChar (c : Char) : Bool := c.isWhitespace

/-- Python `s.strip()`: drop leading and trailing whitespace. -/
def stripStr (s : String) : String :=
  (((s.toList.dropWhile isSpaceChar).reverse.dropWhile isSpaceChar).reverse).asString

/-- Python `s.split(",")` on character lists. -/
def splitComma : List Char → List (List Char)
  | [] => [[]]
  | c :: cs =>
      if c = ',' then [] :: splitComma cs
      else
        match splitComma cs with
        | [] => [[c]]
        | g :: gs => (c :: g) :: gs

/-- Line 22: `[lbl.strip() for lbl in labels_input.split(",") if lbl.strip()]`. -/
def label_list (labels_input : String) : List String :=
  (splitComma labels_input.toList).filterMap fun g =>
    let t := stripStr g.asString
    if t = "" then none else some t

/-- Lines 23 and 49: `re.sub(r"[^A-Za-z0-9]", "", s).lower()`.  Both the regex
classes and Python `lower` act on ASCII here, matching `Char.isAlphanum`
and `Char.toLower`. -/
def normStr (s : String) : String :=
  ((s.toList.filter Char.isAlphanum).map Char.toLower).asString

/-- Line 23: the normalized label set (membership is all that is used). -/
def norm_labels (labels_input : String) : List String :=
  (label_list labels_input).map normStr

/-- Line 18: the Label Matcher of the code, factored out of the membership
test of line 49: a candidate text hits a target label exactly when the two
normalize to the same string. -/
def label_matches (candidate target : String) : Bool :=
  normStr candidate == normStr target

/-- Line 26: `left_margin_threshold = 50` points. -/
def left_margin_threshold : ℚ := 50

/-- Python substring membership `needle in haystack` on character lists. -/
def occurs_in (needle : List Char) : List Char → Bool
  | [] => needle.isEmpty
  | c :: cs => needle.isPrefixOf (c :: cs) || occurs_in needle cs

/-- Line 41: the excluded keyword list. -/
def keyword_excluded (t : String) : Bool :=
  ["Words and Music by", "Arr.", "From "].any fun kw => occurs_in kw.toList t.toList

/-- Lines 36-42: a line is kept as a candidate label when the stripped text is
nonempty, `x0` is left of the threshold, the text holds an ASCII letter and
no excluded keyword occurs in it. -/
def is_candidate (l : Line) : Bool :=
  let t := stripStr l.text
  !decide (t = "") && decide (l.x0 < left_margin_threshold) &&
    t.toList.any Char.isAlpha && !keyword_excluded t

/-- One collected tuple of line 43: `(page_index + 1, y0, y1, text)`. -/
structure LabelEntry where
  page_number : Nat
  y0 : ℚ
  y1 : ℚ
  text : String
deriving DecidableEq

/-- Lines 31-43 for one page: the kept candidate tuples, in line order. -/
def page_entries (page_number : Nat) (p : Page) : List LabelEntry :=
  p.lines.filterMap fun l =>
    if is_candidate l then some ⟨page_number, l.y0, l.y1, stripStr l.text⟩ else none

/-- Lines 28-43: walk the pages with `page_index` starting at `n`. -/
def collect_labels : Nat → List Page → List LabelEntry
  | _, [] => []
  | n, p :: ps => page_entries (n + 1) p ++ collect_labels (n + 1) ps

/-- The unsorted `all_labels` list right before line 45. -/
def all_labels_unsorted (doc : Doc) : List LabelEntry :=
  collect_labels 0 doc

/-- The sort key of line 45: `(page_number, y0)` lexicographically. -/
def entry_le (a b : LabelEntry) : Prop :=
  a.page_number < b.page_number ∨ (a.page_number = b.page_number ∧ a.y0 ≤ b.y0)

instance : DecidableRel entry_le := fun a b => by
  unfold entry_le; infer_instance

instance : IsTotal LabelEntry entry_le where
  total a b := by
    unfold entry_le
    rcases Nat.lt_trichotomy a.page_number b.page_number with h | h | h
    · exact Or.inl (Or.inl h)
    · rcases le_total a.y0 b.y0 with h2 | h2
      · exact Or.inl (Or.inr ⟨h, h2⟩)
      · exact Or.inr (Or.inr ⟨h.symm, h2⟩)
    · exact Or.inr (Or.inl h)

instance : IsTrans LabelEntry entry_le where
  trans a b c hab hbc := by
    unfold entry_le at *
    rcases hab with h1 | ⟨e1, y1⟩
    · rcases hbc with h2 | ⟨e2, _⟩
      · exact Or.inl (h1.trans h2)
      · exact Or.inl (e2 ▸ h1)
    · rcases hbc with h2 | ⟨e2, y2⟩
      · exact Or.inl (e1 ▸ h2)
      · exact Or.inr ⟨e1.trans e2, y1.trans y2⟩

/-- Line 45: `all_labels.sort(key=lambda t: (t[0], t[1]))` — a stable sort by
`(page, y0)`; `List.insertionSort` is stable with the same tie behaviour. -/
def all_labels (doc : Doc) : List LabelEntry :=
  List.insertionSort entry_le (all_labels_unsorted doc)

/-- Lines 48-49: keep the candidates whose normalized text is in the
normalized label set. -/
def target_labels (doc : Doc) (norms : List String) : List LabelEntry :=
  (all_labels doc).filter fun e => norms.contains (normStr e.text)

/-- A vertical slice of one source page, as cropped by lines 76-96. -/
structure Region where
  page_number : Nat
  top : ℚ
  bottom : ℚ
deriving DecidableEq

/-- Height of the source page holding `page_number` (1-based), line 93. -/
def page_height_of (doc : Doc) (page_number : Nat) : ℚ :=
  (doc.getD (page_number - 1) emptyPage).height

/-- Python `max` on two rationals, kept kernel-reducible. -/
def qmax (a b : ℚ) : ℚ := if a ≤ b then b else a

/-- Python `min` on two rationals, kept kernel-reducible. -/
def qmin (a b : ℚ) : ℚ := if a ≤ b then a else b

/-- Lines 77-83: the top boundary, with the 20-point margin above the first
label of a source page. -/
def top_crop (prev_page : Option Nat) (e : LabelEntry) : ℚ :=
  if prev_page ≠ some e.page_number then qmax 0 (e.y0 - 20) else e.y0

/-- The search predicate of lines 87-88: same page, strictly below the label. -/
def next_pred (e : LabelEntry) (lab : LabelEntry) : Bool :=
  decide (lab.page_number = e.page_number) && decide (e.y0 < lab.y0)

/-- Lines 85-93: the bottom boundary — the top of the first candidate line
below the label on the same page if any, else the 120-point fallback clamped
to the page height. -/
def bottom_crop (doc : Doc) (e : LabelEntry) : ℚ :=
  match (all_labels doc).find? (next_pred e) with
  | some next_label => next_label.y0
  | none => qmin (page_height_of doc e.page_number) (e.y0 + 120)

/-- Lines 73-96: the extraction loop, threading `prev_page`. -/
def regions_go (doc : Doc) : Option Nat → List LabelEntry → List Region
  | _, [] => []
  | prev_page, e :: rest =>
      ⟨e.page_number, top_crop prev_page e, bottom_crop doc e⟩ ::
        regions_go doc (some e.page_number) rest

/-- The ordered list of regions the run crops, one per target label. -/
def regions_of (doc : Doc) (norms : List String) : List Region :=
  regions_go doc none (target_labels doc norms)

/-- A region together with its rendered height in points (line 98,
`pix.height / zoom_factor`, idealised as the exact clip height). -/
structure Crop where
  region : Region
  h : ℚ
deriving DecidableEq

/-- Line 96-98: the crop of a region, rendered height `bottom - top`. -/
def crop_of (r : Region) : Crop := ⟨r, r.bottom - r.top⟩

/-- Line 58: `top_margin = 10`. -/
def top_margin : ℚ := 10

/-- Line 59: `bottom_margin = 10`. -/
def bottom_margin : ℚ := 10

/-- Line 60: `vertical_gap = 5`. -/
def vertical_gap : ℚ := 5

/-- Line 105: a crop placed at `[y, y + h]` on the current output page. -/
structure Placement where
  y : ℚ
  crop : Crop
deriving DecidableEq

/-- Lines 69-70: an output page of the fixed size with its placed crops. -/
structure OutPage where
  width : ℚ
  height : ℚ
  items : List Placement
deriving DecidableEq

/-- Lines 100-108 for one output page: place crops at the cursor while
`y_cursor + h` stays within `page_height - bottom_margin`; return the
placements of the current page and the crops left for later pages. -/
def fill_page (page_height : ℚ) : ℚ → List Crop → List Placement × List Crop
  | _, [] => ([], [])
  | y_cursor, c :: cs =>
      if page_height - bottom_margin < y_cursor + c.h then ([], c :: cs)
      else
        let res := fill_page page_height (y_cursor + c.h + vertical_gap) cs
        (⟨y_cursor, c⟩ :: res.1, res.2)

/-- Lines 100-108: start a new page for the next crop, reset the cursor to
`top_margin`, fill the page, recurse on the remainder.  The fuel argument is
only a structural-recursion bound; `pack_pages` supplies enough. -/
def pack_go (page_width page_height : ℚ) : Nat → List Crop → List OutPage
  | 0, _ => []
  | _ + 1, [] => []
  | fuel + 1, c :: cs =>
      let fp := fill_page page_height (top_margin + c.h + vertical_gap) cs
      ⟨page_width, page_height, ⟨top_margin, c⟩ :: fp.1⟩ ::
        pack_go page_width page_height fuel fp.2

/-- The whole Page Packer of lines 65-108. -/
def pack_pages (page_width page_height : ℚ) (cs : List Crop) : List OutPage :=
  pack_go page_width page_height cs.length cs

/-- Line 56: the fixed output page size is the size of source page 0. -/
def output_page_size (doc : Doc) : ℚ × ℚ :=
  ((doc.getD 0 emptyPage).width, (doc.getD 0 emptyPage).height)

/-- Lines 54-108: the full extraction for a given normalized label set. -/
def extract_pages (doc : Doc) (norms : List String) : List OutPage :=
  pack_pages (output_page_size doc).1 (output_page_size doc).2
    ((regions_of doc norms).map crop_of)

/-- The observable outcomes of the app body (lines 20, 51-52, 53-112):
with an empty label input nothing runs at all, with no matching labels the
generic warning is shown, otherwise the output document is produced together
with the reported count of extracted systems. -/
inductive Outcome where
  | idle
  | no_match
  | success (pages : List OutPage) (count : Nat)
deriving DecidableEq

/-- Lines 20-118: the control flow of the app given an opened document and
the label input string. -/
def run_app (doc : Doc) (labels_input : String) : Outcome :=
  if labels_input = "" then Outcome.idle
  else
    let norms := norm_labels labels_input
    let ts := target_labels doc norms
    if ts = [] then Outcome.no_match
    else Outcome.success (extract_pages doc norms) ts.length

/-- Millimeters to points, the conversion named by the spec. -/
def mm_to_points (mm : ℚ) : ℚ := mm * 72 / (254 / 10)

/-- The A4 paper size in points (210 mm by 297 mm). -/
def a4_size : ℚ × ℚ := (mm_to_points 210, mm_to_points 297)

/-- Cursor value after laying out a list of placements from `y`, line 108. -/
def cursor_after (y : ℚ) (ps : List Placement) : ℚ :=
  y + (ps.map fun p => p.crop.h + vertical_gap).sum

/-- Sum of the rendered heights on one output page. -/
def total_height (ps : List Placement) : ℚ :=
  (ps.map fun p => p.crop.h).sum

/-- Placements laid out consecutively from `y`: each starts where the cursor
stood and advances it by its height plus the gap. -/
def chain_from (y : ℚ) : List Placement → Prop
  | [] => True
  | p :: ps => p.y = y ∧ chain_from (y + p.crop.h + vertical_gap) ps

/-- The ordering the output keeps: earlier source page first, higher region
on the same page first. -/
def region_le (r s : Region) : Prop :=
  r.page_number < s.page_number ∨ (r.page_number = s.page_number ∧ r.top ≤ s.top)

instance : DecidableRel region_le := fun a b => by
  unfold region_le; infer_instance

instance : IsTrans Region region_le where
  trans a b c hab hbc := by
    unfold region_le at *
    rcases hab with h1 | ⟨e1, y1⟩
    · rcases hbc with h2 | ⟨e2, _⟩
      · exact Or.inl (h1.trans h2)
      · exact Or.inl (e2 ▸ h1)
    · rcases hbc with h2 | ⟨e2, y2⟩
      · exact Or.inl (e1 ▸ h2)
      · exact Or.inr ⟨e1.trans e2, y1.trans y2⟩

/-! ### Packing helper lemmas -/

theorem vertical_gap_pos : 0 < vertical_gap := by norm_num [vertical_gap]

theorem cursor_after_nil (y : ℚ) : cursor_after y [] = y := by
  simp [cursor_after]

theorem cursor_after_cons (y : ℚ) (p : Placement) (ps : List Placement) :
    cursor_after y (p :: ps) = cursor_after (y + p.crop.h + vertical_gap) ps := by
  simp [cursor_after]
  ring

theorem fill_page_nil (H y : ℚ) : fill_page H y [] = ([], []) := rfl

theorem fill_page_cons (H y : ℚ) (c : Crop) (cs : List Crop) :
    fill_page H y (c :: cs) =
      if H - bottom_margin < y + c.h then ([], c :: cs)
      else
        (⟨y, c⟩ :: (fill_page H (y + c.h + vertical_gap) cs).1,
          (fill_page H (y + c.h + vertical_gap) cs).2) := by
  rw [fill_page]

theorem fill_page_crops (H : ℚ) :
    ∀ (cs : List Crop) (y : ℚ),
      ((fill_page H y cs).1.map Placement.crop) ++ (fill_page H y cs).2 = cs := by
  intro cs
  induction cs with
  | nil => intro y; simp [fill_page]
  | cons c cs ih =>
      intro y
      by_cases hc : H - bottom_margin < y + c.h
      · simp [fill_page, hc]
      · simpa [fill_page, hc] using ih (y + c.h + vertical_gap)

theorem fill_page_chain (H : ℚ) :
    ∀ (cs : List Crop) (y : ℚ), chain_from y (fill_page H y cs).1 := by
  intro cs
  induction cs with
  | nil => intro y; simp [fill_page, chain_from]
  | cons c cs ih =>
      intro y
      by_cases hc : H - bottom_margin < y + c.h
      · simp [fill_page, hc, chain_from]
      · simpa [fill_page, hc, chain_from] using ih (y + c.h + vertical_gap)

theorem fill_page_fits (H : ℚ) :
    ∀ (cs : List Crop) (y : ℚ), ∀ p ∈ (fill_page H y cs).1,
      p.y + p.crop.h ≤ H - bottom_margin := by
  intro cs
  induction cs with
  | nil => intro y p hp; simp [fill_page_nil] at hp
  | cons c cs ih =>
      intro y p hp
      by_cases hc : H - bottom_margin < y + c.h
      · rw [fill_page_cons, if_pos hc] at hp
        simp at hp
      · rw [fill_page_cons, if_neg hc] at hp
        rcases List.mem_cons.mp hp with hp | hp
        · subst hp; simpa using le_of_not_lt hc
        · exact ih (y + c.h + vertical_gap) p hp

theorem fill_page_rest_length (H : ℚ) :
    ∀ (cs : List Crop) (y : ℚ), (fill_page H y cs).2.length ≤ cs.length := by
  intro cs
  induction cs with
  | nil => intro y; simp [fill_page]
  | cons c cs ih =>
      intro y
      by_cases hc : H - bottom_margin < y + c.h
      · simp [fill_page, hc]
      · simp only [fill_page, if_neg hc]
        exact le_trans (ih (y + c.h + vertical_gap)) (Nat.le_succ _)

theorem fill_page_rest (H : ℚ) :
    ∀ (cs : List Crop) (y : ℚ) (d : Crop),
      (fill_page H y cs).2.head? = some d →
      H - bottom_margin < cursor_after y (fill_page H y cs).1 + d.h := by
  intro cs
  induction cs with
  | nil => intro y d hd; simp [fill_page] at hd
  | cons c cs ih =>
      intro y d hd
      by_cases hc : H - bottom_margin < y + c.h
      · simp only [fill_page, if_pos hc, List.head?] at hd ⊢
        cases hd
        simpa [cursor_after_nil] using hc
      · simp only [fill_page, if_neg hc] at hd ⊢
        rw [cursor_after_cons]
        exact ih (y + c.h + vertical_gap) d hd

theorem pack_go_nil (W H : ℚ) : ∀ fuel, pack_go W H fuel [] = [] := by
  intro fuel; cases fuel <;> rfl

theorem pack_go_crops (W H : ℚ) :
    ∀ (fuel : Nat) (cs : List Crop), cs.length ≤ fuel →
      ((pack_go W H fuel cs).flatMap fun op => op.items.map Placement.crop) = cs := by
  intro fuel
  induction fuel with
  | zero =>
      intro cs h
      rw [List.length_eq_zero.mp (Nat.le_zero.mp h)]
      rfl
  | succ fuel ih =>
      intro cs h
      cases cs with
      | nil => simp [pack_go]
      | cons c cs =>
          have hlen : (fill_page H (top_margin + c.h + vertical_gap) cs).2.length ≤ fuel :=
            le_trans (fill_page_rest_length H cs _) (Nat.succ_le_succ_iff.mp h)
          simp only [pack_go, List.flatMap_cons]
          rw [ih _ hlen]
          have := fill_page_crops H cs (top_margin + c.h + vertical_gap)
          simp only [List.map_cons]
          rw [List.cons_append, this]

theorem pack_go_pages (W H : ℚ) :
    ∀ (fuel : Nat) (cs : List Crop), cs.length ≤ fuel →
      ∀ op ∈ pack_go W H fuel cs,
        op.width = W ∧ op.height = H ∧ op.items ≠ [] ∧
          chain_from top_margin op.items ∧
          ∀ p ∈ op.items.tail, p.y + p.crop.h ≤ H - bottom_margin := by
  intro fuel
  induction fuel with
  | zero =>
      intro cs h op hop
      rw [List.length_eq_zero.mp (Nat.le_zero.mp h)] at hop
      simp [pack_go] at hop
  | succ fuel ih =>
      intro cs h op hop
      cases cs with
      | nil => simp [pack_go] at hop
      | cons c cs =>
          have hlen : (fill_page H (top_margin + c.h + vertical_gap) cs).2.length ≤ fuel :=
            le_trans (fill_page_rest_length H cs _) (Nat.succ_le_succ_iff.mp h)
          simp only [pack_go, List.mem_cons] at hop
          rcases hop with hop | hop
          · subst hop
            refine ⟨rfl, rfl, by simp, ?_, ?_⟩
            · exact ⟨rfl, fill_page_chain H cs _⟩
            · intro p hp
              exact fill_page_fits H cs _ p hp
          · exact ih _ hlen op hop

theorem pack_go_maximal (W H : ℚ) :
    ∀ (fuel : Nat) (cs : List Crop), cs.length ≤ fuel →
      List.Chain'
        (fun a b => ∀ p ∈ b.items.head?,
          H - bottom_margin < cursor_after top_margin a.items + p.crop.h)
        (pack_go W H fuel cs) := by
  intro fuel
  induction fuel with
  | zero =>
      intro cs h
      rw [List.length_eq_zero.mp (Nat.le_zero.mp h)]
      simp [pack_go]
  | succ fuel ih =>
      intro cs h
      cases cs with
      | nil => simp [pack_go]
      | cons c cs =>
          have hlen : (fill_page H (top_margin + c.h + vertical_gap) cs).2.length ≤ fuel :=
            le_trans (fill_page_rest_length H cs _) (Nat.succ_le_succ_iff.mp h)
          simp only [pack_go]
          rw [List.chain'_cons']
          refine ⟨?_, ih _ hlen⟩
          intro b hb p hp
          rcases hrest : (fill_page H (top_margin + c.h + vertical_gap) cs).2 with _ | ⟨d, ds⟩
          · rw [hrest, pack_go_nil] at hb
            simp at hb
          · rw [hrest] at hb
            cases fuel with
            | zero =>
                rw [hrest] at hlen
                simp at hlen
            | succ fuel2 =>
                simp only [pack_go, List.head?_cons, Option.mem_def, Option.some.injEq] at hb
                subst hb
                simp only [List.head?_cons, Option.mem_def, Option.some.injEq] at hp
                subst hp
                rw [cursor_after_cons]
                have := fill_page_rest H cs (top_margin + c.h + vertical_gap) d (by rw [hrest]; rfl)
                simpa using this

theorem vertical_gap_nonneg : 0 ≤ vertical_gap := le_of_lt vertical_gap_pos

theorem chain_from_nil (y : ℚ) : chain_from y [] := trivial

theorem chain_from_lower :
    ∀ (ps : List Placement) (y : ℚ), chain_from y ps →
      (∀ p ∈ ps, 0 ≤ p.crop.h) → ∀ q ∈ ps, y ≤ q.y := by
  intro ps
  induction ps with
  | nil => intro y _ _ q hq; simp at hq
  | cons p ps ih =>
      intro y hchain hnn q hq
      obtain ⟨hy, hrest⟩ := hchain
      rcases List.mem_cons.mp hq with hq | hq
      · subst hq; exact le_of_eq hy.symm
      · have h1 : y ≤ y + p.crop.h + vertical_gap := by
          have := hnn p (List.mem_cons_self p ps)
          have := vertical_gap_nonneg
          linarith
        exact le_trans h1 (ih _ hrest (fun r hr => hnn r (List.mem_cons_of_mem p hr)) q hq)

theorem chain_from_pairwise :
    ∀ (ps : List Placement) (y : ℚ), chain_from y ps →
      (∀ p ∈ ps, 0 ≤ p.crop.h) →
      ps.Pairwise (fun p q => p.y + p.crop.h < q.y) := by
  intro ps
  induction ps with
  | nil => intro y _ _; exact List.Pairwise.nil
  | cons p ps ih =>
      intro y hchain hnn
      obtain ⟨hy, hrest⟩ := hchain
      refine List.Pairwise.cons ?_ (ih _ hrest fun r hr => hnn r (List.mem_cons_of_mem p hr))
      intro q hq
      have hlow := chain_from_lower ps (y + p.crop.h + vertical_gap) hrest
        (fun r hr => hnn r (List.mem_cons_of_mem p hr)) q hq
      have := vertical_gap_pos
      rw [hy]
      linarith

theorem chain_capacity (H : ℚ) :
    ∀ (ps : List Placement) (y : ℚ), chain_from y ps →
      (∀ p ∈ ps.tail, p.y + p.crop.h ≤ H - bottom_margin) →
      (∀ p ∈ ps.head?, p.y + p.crop.h ≤ H - bottom_margin) →
      ps ≠ [] →
      y + total_height ps + vertical_gap * ((ps.length : ℚ) - 1) ≤ H - bottom_margin := by
  intro ps
  induction ps with
  | nil => intro y _ _ _ hne; exact absurd rfl hne
  | cons p ps ih =>
      intro y hchain htail hhead _
      obtain ⟨hy, hrest⟩ := hchain
      cases ps with
      | nil =>
          have := hhead p rfl
          simp only [total_height, List.map_cons, List.map_nil, List.sum_cons, List.sum_nil,
            List.length_cons, List.length_nil]
          rw [hy] at this
          push_cast
          linarith
      | cons q qs =>
          have hq : q.y + q.crop.h ≤ H - bottom_margin := htail q (List.mem_cons_self q qs)
          have ihres := ih (y + p.crop.h + vertical_gap) hrest
            (fun r hr => htail r (List.mem_cons_of_mem q hr)) (fun r hr => by
              simp only [List.head?_cons, Option.mem_def, Option.some.injEq] at hr
              subst hr; exact hq) (by simp)
          simp only [total_height, List.map_cons, List.sum_cons, List.length_cons] at ihres ⊢
          push_cast at ihres ⊢
          linarith

theorem page_oversized (H : ℚ) :
    ∀ (items : List Placement), chain_from top_margin items →
      (∀ p ∈ items.tail, p.y + p.crop.h ≤ H - bottom_margin) →
      (∀ p ∈ items, 0 ≤ p.crop.h) →
      ∀ p ∈ items, H - top_margin - bottom_margin < p.crop.h → items = [p] := by
  intro items hchain htail hnn p hp hbig
  cases items with
  | nil => simp at hp
  | cons i0 tl =>
      obtain ⟨hy0, hrest⟩ := hchain
      have hpi0 : p = i0 := by
        rcases List.mem_cons.mp hp with h | h
        · exact h
        · exfalso
          have hfit := htail p h
          have hlow := chain_from_lower tl (top_margin + i0.crop.h + vertical_gap) hrest
            (fun r hr => hnn r (List.mem_cons_of_mem i0 hr)) p h
          have h0 := hnn i0 (List.mem_cons_self i0 tl)
          have := vertical_gap_pos
          linarith
      subst hpi0
      have htl : tl = [] := by
        rcases tl with _ | ⟨q, qs⟩
        · rfl
        · exfalso
          have hfit := htail q (List.mem_cons_self q qs)
          obtain ⟨hqy, _⟩ := hrest
          have hq0 := hnn q (List.mem_cons_of_mem p (List.mem_cons_self q qs))
          have := vertical_gap_pos
          linarith [hqy]
      rw [htl]

theorem pack_go_zero (W H : ℚ) (cs : List Crop) : pack_go W H 0 cs = [] := rfl

theorem pack_go_succ_cons (W H : ℚ) (fuel : Nat) (c : Crop) (cs : List Crop) :
    pack_go W H (fuel + 1) (c :: cs) =
      ⟨W, H, ⟨top_margin, c⟩ :: (fill_page H (top_margin + c.h + vertical_gap) cs).1⟩ ::
        pack_go W H fuel (fill_page H (top_margin + c.h + vertical_gap) cs).2 := rfl

/-- Claim C3: the Page Packer processes crops in input order; a new output page
starts exactly when no page exists yet or the cursor plus the rendered height
would pass `page_height - bottom_margin`, with the cursor reset to
`top_margin`; crops are placed whole (never split), an oversized crop sits
alone on its page, and two adjacent crops whose heights together pass the
usable height end up on different pages, the second at the top of a fresh
page.  The parts: (1) the concatenation of the placed crops over all output
pages is exactly the input sequence, whole and in order; (2) every output
page is nonempty, starts at `top_margin`, advances by height plus gap, and
every placement after the first fits above `H - bottom_margin`; (3) between
consecutive pages, the first crop of the later page did not fit on the
earlier one — a new page starts only when needed; (4) a crop taller than the
usable height has its page to itself (rendered heights are pixel counts,
hence nonnegative); (5) Scenario 5 of the spec, two adjacent overflowing
crops. -/
theorem c3_page_packer (W H : ℚ) (cs : List Crop) :
    ((pack_pages W H cs).flatMap fun op => op.items.map Placement.crop) = cs ∧
    (∀ op ∈ pack_pages W H cs,
      op.items ≠ [] ∧ (∀ p ∈ op.items.head?, p.y = top_margin) ∧
      chain_from top_margin op.items ∧
      ∀ p ∈ op.items.tail, p.y + p.crop.h ≤ H - bottom_margin) ∧
    List.Chain' (fun a b => ∀ p ∈ b.items.head?,
      H - bottom_margin < cursor_after top_margin a.items + p.crop.h)
      (pack_pages W H cs) ∧
    (∀ op ∈ pack_pages W H cs, (∀ q ∈ op.items, 0 ≤ q.crop.h) →
      ∀ p ∈ op.items, H - top_margin - bottom_margin < p.crop.h → op.items = [p]) ∧
    (∀ c1 c2 : Crop, H - top_margin - bottom_margin < c1.h + c2.h →
      pack_pages W H [c1, c2] =
        [⟨W, H, [⟨top_margin, c1⟩]⟩, ⟨W, H, [⟨top_margin, c2⟩]⟩]) := by
  refine ⟨pack_go_crops W H cs.length cs le_rfl, ?_, pack_go_maximal W H cs.length cs le_rfl,
    ?_, ?_⟩
  · intro op hop
    obtain ⟨_, _, hne, hchain, htail⟩ := pack_go_pages W H cs.length cs le_rfl op hop
    refine ⟨hne, ?_, hchain, htail⟩
    intro p hp
    cases hitems : op.items with
    | nil => rw [hitems] at hp; simp at hp
    | cons i tl =>
        rw [hitems] at hp
        simp only [List.head?_cons, Option.mem_def, Option.some.injEq] at hp
        subst hp
        rw [hitems] at hchain
        exact hchain.1
  · intro op hop hnn p hp hbig
    obtain ⟨_, _, _, hchain, htail⟩ := pack_go_pages W H cs.length cs le_rfl op hop
    exact page_oversized H op.items hchain htail hnn p hp hbig
  · intro c1 c2 hover
    have hg := vertical_gap_pos
    have hcond : H - bottom_margin < top_margin + c1.h + vertical_gap + c2.h := by linarith
    have h2 : pack_pages W H [c1, c2] = pack_go W H (1 + 1) [c1, c2] := rfl
    rw [h2, pack_go_succ_cons, fill_page_cons, if_pos hcond]
    have h3 : pack_go W H 1 (([] : List Placement), [c2]).2 = pack_go W H (0 + 1) [c2] := rfl
    rw [h3, pack_go_succ_cons, fill_page_nil, pack_go_zero]

/-- A two-page document: page one holds the requested label near the top and
an unrelated candidate line near the bottom, page two holds the label once. -/
def doc_two_pages : Doc :=
  [⟨150, 200, [⟨5, 10, 60, 20, "Tenor II"⟩, ⟨5, 195, 60, 199, "zzz"⟩]⟩,
   ⟨150, 200, [⟨5, 50, 60, 60, "Tenor II"⟩]⟩]

/-- A single page of 500 by 700 points with one requested label. -/
def doc_single_a : Doc := [⟨500, 700, [⟨5, 100, 60, 110, "Tenor II"⟩]⟩]

/-- The same content on a page of 600 by 800 points. -/
def doc_single_b : Doc := [⟨600, 800, [⟨5, 100, 60, 110, "Tenor II"⟩]⟩]

/-- Witness for C3: two crops of heights 200 and 150 overflow the usable
height of a 300-point page, so the packer puts the second at the top margin
of a fresh second page. -/
theorem c3_page_packer_witness :
    pack_pages 100 300 [⟨⟨1, 0, 200⟩, 200⟩, ⟨⟨1, 200, 350⟩, 150⟩] =
      [⟨100, 300, [⟨top_margin, ⟨⟨1, 0, 200⟩, 200⟩⟩]⟩,
        ⟨100, 300, [⟨top_margin, ⟨⟨1, 200, 350⟩, 150⟩⟩]⟩] :=
  (c3_page_packer 100 300 []).2.2.2.2 ⟨⟨1, 0, 200⟩, 200⟩ ⟨⟨1, 200, 350⟩, 150⟩
    (by norm_num [top_margin, bottom_margin])

/-- Claim C2 (amended): on every output page the placements are pairwise
disjoint whenever the rendered heights are nonnegative (pixel counts always
are), and whenever the first crop of the page fits within the usable height
`page_height - top_margin - bottom_margin`, the placed heights plus the
inter-item gaps stay within that usable height.  The bound holds for every
page, last included; it can only fail on a page whose single first crop is
itself taller than the usable height, which the code places overflowing. -/
theorem c2_packing_invariant (doc : Doc) (norms : List String) :
    ∀ op ∈ extract_pages doc norms,
      ((∀ p ∈ op.items, 0 ≤ p.crop.h) →
        op.items.Pairwise (fun p q => p.y + p.crop.h < q.y)) ∧
      (∀ p0 ∈ op.items.head?, p0.crop.h ≤ op.height - top_margin - bottom_margin →
        total_height op.items + vertical_gap * ((op.items.length : ℚ) - 1)
          ≤ op.height - top_margin - bottom_margin) := by
  intro op hop
  have hop2 : op ∈ pack_go (output_page_size doc).1 (output_page_size doc).2
      ((regions_of doc norms).map crop_of).length ((regions_of doc norms).map crop_of) := hop
  obtain ⟨hW, hH, hne, hchain, htail⟩ :=
    pack_go_pages (output_page_size doc).1 (output_page_size doc).2
      ((regions_of doc norms).map crop_of).length ((regions_of doc norms).map crop_of)
      le_rfl op hop2
  constructor
  · intro hnn
    exact chain_from_pairwise op.items top_margin hchain hnn
  · intro p0 hp0 hfit
    rw [hH] at hfit ⊢
    have hhead : ∀ p ∈ op.items.head?,
        p.y + p.crop.h ≤ (output_page_size doc).2 - bottom_margin := by
      intro p hp
      cases hitems : op.items with
      | nil => rw [hitems] at hp; simp at hp
      | cons i tl =>
          rw [hitems] at hp hp0
          simp only [List.head?_cons, Option.mem_def, Option.some.injEq] at hp hp0
          have hiy : i.y = top_margin := by rw [hitems] at hchain; exact hchain.1
          rw [← hp, hiy]
          rw [← hp0] at hfit
          linarith
    have hcap := chain_capacity (output_page_size doc).2 op.items top_margin
      hchain htail hhead hne
    linarith

/-- Counterexample to Claim C2 as stated: in this two-page run the first
output page is not the last one, yet it carries a single crop of rendered
height 195 on a 200-point page, so the placed heights pass
`page_height - top_margin - bottom_margin = 180`.  The claim is violated
because the code never splits a crop: a crop taller than the usable height
overflows its (possibly non-last) page. -/
theorem c2_counterexample :
    extract_pages doc_two_pages ["tenorii"] =
      [⟨150, 200, [⟨10, ⟨⟨1, 0, 195⟩, 195⟩⟩]⟩,
        ⟨150, 200, [⟨10, ⟨⟨2, 30, 170⟩, 140⟩⟩]⟩] ∧
    ¬ (total_height [⟨10, ⟨⟨1, 0, 195⟩, 195⟩⟩] +
        vertical_gap * ((List.length [(⟨10, ⟨⟨1, 0, 195⟩, 195⟩⟩ : Placement)] : ℚ) - 1)
          ≤ 200 - top_margin - bottom_margin) := by
  constructor
  · decide
  · norm_num [total_height, vertical_gap, top_margin, bottom_margin]

/-- Witness for C2 at a concrete run: a single fitting crop on a 700-point
page satisfies both the disjointness and the capacity bound. -/
theorem c2_packing_invariant_witness :
    List.Pairwise (fun p q => p.y + p.crop.h < q.y)
      [(⟨10, ⟨⟨1, 80, 220⟩, 140⟩⟩ : Placement)] ∧
    total_height [(⟨10, ⟨⟨1, 80, 220⟩, 140⟩⟩ : Placement)] +
      vertical_gap * ((List.length [(⟨10, ⟨⟨1, 80, 220⟩, 140⟩⟩ : Placement)] : ℚ) - 1)
        ≤ (⟨500, 700, [⟨10, ⟨⟨1, 80, 220⟩, 140⟩⟩]⟩ : OutPage).height
            - top_margin - bottom_margin := by
  have h := c2_packing_invariant doc_single_a ["tenorii"]
    ⟨500, 700, [⟨10, ⟨⟨1, 80, 220⟩, 140⟩⟩]⟩ (by decide)
  exact ⟨h.1 (by decide), h.2 ⟨10, ⟨⟨1, 80, 220⟩, 140⟩⟩ rfl
    (by norm_num [top_margin, bottom_margin])⟩

/-- Claim C8 (amended): all output pages of a run share one fixed size — the
size of source page 0 (lines 56 and 70) — not an A4 default. -/
theorem c8_output_page_size (doc : Doc) (norms : List String) :
    ∀ op ∈ extract_pages doc norms,
      op.width = (output_page_size doc).1 ∧ op.height = (output_page_size doc).2 := by
  intro op hop
  have hop2 : op ∈ pack_go (output_page_size doc).1 (output_page_size doc).2
      ((regions_of doc norms).map crop_of).length ((regions_of doc norms).map crop_of) := hop
  obtain ⟨hW, hH, _, _, _⟩ :=
    pack_go_pages (output_page_size doc).1 (output_page_size doc).2
      ((regions_of doc norms).map crop_of).length ((regions_of doc norms).map crop_of)
      le_rfl op hop2
  exact ⟨hW, hH⟩

/-- Counterexample to Claim C8 as stated: the output page takes the 500 by
700 point size of the first source page, which is not the A4 default, and a
source document with a different first page gives a different output size. -/
theorem c8_counterexample :
    extract_pages doc_single_a ["tenorii"] =
      [⟨500, 700, [⟨10, ⟨⟨1, 80, 220⟩, 140⟩⟩]⟩] ∧
    output_page_size doc_single_a ≠ a4_size ∧
    output_page_size doc_single_a ≠ output_page_size doc_single_b := by
  refine ⟨by decide, ?_, by decide⟩
  simp only [output_page_size, a4_size, mm_to_points, doc_single_a]
  intro hcontra
  have := congrArg Prod.fst hcontra
  norm_num [emptyPage] at this

/-- Witness for C8 at a concrete run. -/
theorem c8_output_page_size_witness :
    (⟨500, 700, [⟨10, ⟨⟨1, 80, 220⟩, 140⟩⟩]⟩ : OutPage).width
        = (output_page_size doc_single_a).1 ∧
    (⟨500, 700, [⟨10, ⟨⟨1, 80, 220⟩, 140⟩⟩]⟩ : OutPage).height
        = (output_page_size doc_single_a).2 :=
  c8_output_page_size doc_single_a ["tenorii"] ⟨500, 700, [⟨10, ⟨⟨1, 80, 220⟩, 140⟩⟩]⟩
    (by decide)

/-! ### Candidate collection and sorting lemmas -/

theorem mem_page_entries (n : Nat) (p : Page) (e : LabelEntry) :
    e ∈ page_entries n p ↔
      ∃ l ∈ p.lines, is_candidate l = true ∧ e = ⟨n, l.y0, l.y1, stripStr l.text⟩ := by
  simp only [page_entries, List.mem_filterMap]
  constructor
  · rintro ⟨l, hl, hfl⟩
    by_cases hc : is_candidate l
    · rw [if_pos hc] at hfl
      exact ⟨l, hl, hc, (Option.some.injEq _ _).mp hfl |>.symm⟩
    · rw [if_neg hc] at hfl; cases hfl
  · rintro ⟨l, hl, hc, he⟩
    exact ⟨l, hl, by rw [if_pos hc, he]⟩

theorem mem_collect_labels :
    ∀ (ps : List Page) (n : Nat) (e : LabelEntry), e ∈ collect_labels n ps →
      ∃ k p, ps.get? k = some p ∧
        ∃ l ∈ p.lines, is_candidate l = true ∧
          e = ⟨n + k + 1, l.y0, l.y1, stripStr l.text⟩ := by
  intro ps
  induction ps with
  | nil => intro n e he; simp [collect_labels] at he
  | cons p ps ih =>
      intro n e he
      rw [collect_labels] at he
      rcases List.mem_append.mp he with he | he
      · obtain ⟨l, hl, hc, hee⟩ := (mem_page_entries (n + 1) p e).mp he
        exact ⟨0, p, rfl, l, hl, hc, hee⟩
      · obtain ⟨k, q, hq, l, hl, hc, hee⟩ := ih (n + 1) e he
        refine ⟨k + 1, q, by simpa using hq, l, hl, hc, ?_⟩
        have harith : n + 1 + k + 1 = n + (k + 1) + 1 := by omega
        rw [hee, harith]

theorem mem_all_labels_unsorted (doc : Doc) (e : LabelEntry)
    (he : e ∈ all_labels_unsorted doc) :
    ∃ k p, doc.get? k = some p ∧
      ∃ l ∈ p.lines, is_candidate l = true ∧
        e = ⟨k + 1, l.y0, l.y1, stripStr l.text⟩ := by
  obtain ⟨k, p, hk, l, hl, hc, hee⟩ := mem_collect_labels doc 0 e he
  rw [Nat.zero_add] at hee
  exact ⟨k, p, hk, l, hl, hc, hee⟩

theorem mem_all_labels (doc : Doc) (e : LabelEntry) :
    e ∈ all_labels doc ↔ e ∈ all_labels_unsorted doc :=
  (List.perm_insertionSort entry_le (all_labels_unsorted doc)).mem_iff

theorem page_height_of_get (doc : Doc) (k : Nat) (p : Page) (h : doc.get? k = some p) :
    page_height_of doc (k + 1) = p.height := by
  unfold page_height_of
  rw [List.getD_eq_getElem?_getD, ← List.get?_eq_getElem?, Nat.add_sub_cancel, h]
  rfl

theorem all_labels_bounds (doc : Doc)
    (hdoc : ∀ p ∈ doc, ∀ l ∈ p.lines, 0 ≤ l.y0 ∧ l.y0 < p.height) :
    ∀ e ∈ all_labels doc, 0 ≤ e.y0 ∧ e.y0 < page_height_of doc e.page_number := by
  intro e he
  obtain ⟨k, p, hk, l, hl, _, hee⟩ :=
    mem_all_labels_unsorted doc e ((mem_all_labels doc e).mp he)
  have hb := hdoc p (List.get?_mem hk) l hl
  have hy : e.y0 = l.y0 := by rw [hee]
  have hpn : e.page_number = k + 1 := by rw [hee]
  rw [hy, hpn, page_height_of_get doc k p hk]
  exact hb

theorem all_labels_y0_nonneg (doc : Doc)
    (hdoc : ∀ p ∈ doc, ∀ l ∈ p.lines, 0 ≤ l.y0) :
    ∀ e ∈ all_labels doc, 0 ≤ e.y0 := by
  intro e he
  obtain ⟨k, p, hk, l, hl, _, hee⟩ :=
    mem_all_labels_unsorted doc e ((mem_all_labels doc e).mp he)
  have hy : e.y0 = l.y0 := by rw [hee]
  rw [hy]
  exact hdoc p (List.get?_mem hk) l hl

theorem mem_target_labels (doc : Doc) (norms : List String) (e : LabelEntry) :
    e ∈ target_labels doc norms ↔
      e ∈ all_labels doc ∧ norms.contains (normStr e.text) = true := by
  simp [target_labels, List.mem_filter]

theorem all_labels_sorted (doc : Doc) : List.Sorted entry_le (all_labels doc) :=
  List.sorted_insertionSort entry_le (all_labels_unsorted doc)

theorem target_labels_sorted (doc : Doc) (norms : List String) :
    List.Sorted entry_le (target_labels doc norms) :=
  List.Pairwise.filter _ (all_labels_sorted doc)

/-! ### Boundary lemmas -/

theorem bottom_crop_eq_some (doc : Doc) (e nxt : LabelEntry)
    (h : (all_labels doc).find? (next_pred e) = some nxt) :
    bottom_crop doc e = nxt.y0 := by
  unfold bottom_crop; rw [h]

theorem bottom_crop_eq_none (doc : Doc) (e : LabelEntry)
    (h : (all_labels doc).find? (next_pred e) = none) :
    bottom_crop doc e = qmin (page_height_of doc e.page_number) (e.y0 + 120) := by
  unfold bottom_crop; rw [h]

theorem top_crop_le (prev : Option Nat) (e : LabelEntry) (h : 0 ≤ e.y0) :
    top_crop prev e ≤ e.y0 := by
  unfold top_crop
  by_cases hp : prev ≠ some e.page_number
  · rw [if_pos hp]
    unfold qmax
    by_cases h2 : (0 : ℚ) ≤ e.y0 - 20
    · rw [if_pos h2]; linarith
    · rw [if_neg h2]; exact h
  · rw [if_neg hp]

theorem top_crop_nonneg (prev : Option Nat) (e : LabelEntry) (h : 0 ≤ e.y0) :
    0 ≤ top_crop prev e := by
  unfold top_crop
  by_cases hp : prev ≠ some e.page_number
  · rw [if_pos hp]
    unfold qmax
    by_cases h2 : (0 : ℚ) ≤ e.y0 - 20
    · rw [if_pos h2]; linarith
    · rw [if_neg h2]
  · rw [if_neg hp]; exact h

theorem bottom_crop_bounds (doc : Doc)
    (hdoc : ∀ p ∈ doc, ∀ l ∈ p.lines, 0 ≤ l.y0 ∧ l.y0 < p.height)
    (e : LabelEntry) (he : e ∈ all_labels doc) :
    e.y0 < bottom_crop doc e ∧
      bottom_crop doc e ≤ page_height_of doc e.page_number := by
  have heb := all_labels_bounds doc hdoc e he
  cases hfind : (all_labels doc).find? (next_pred e) with
  | some nxt =>
      rw [bottom_crop_eq_some doc e nxt hfind]
      have hmem := List.mem_of_find?_eq_some hfind
      have hpred := List.find?_some hfind
      simp only [next_pred, Bool.and_eq_true, decide_eq_true_eq] at hpred
      have hnb := all_labels_bounds doc hdoc nxt hmem
      refine ⟨hpred.2, ?_⟩
      rw [← hpred.1]
      exact le_of_lt hnb.2
  | none =>
      rw [bottom_crop_eq_none doc e hfind]
      unfold qmin
      by_cases hle : page_height_of doc e.page_number ≤ e.y0 + 120
      · rw [if_pos hle]
        exact ⟨heb.2, le_refl _⟩
      · rw [if_neg hle]
        exact ⟨by linarith, le_of_lt (not_le.mp hle)⟩

/-! ### Region list lemmas -/

theorem regions_go_map_bottom (doc : Doc) :
    ∀ (es : List LabelEntry) (prev : Option Nat),
      (regions_go doc prev es).map Region.bottom = es.map (bottom_crop doc) := by
  intro es
  induction es with
  | nil => intro prev; rfl
  | cons e es ih => intro prev; simp [regions_go, ih]

theorem regions_go_mem (doc : Doc) :
    ∀ (es : List LabelEntry) (prev : Option Nat) (r : Region),
      r ∈ regions_go doc prev es →
      ∃ e ∈ es, ∃ pv, r = ⟨e.page_number, top_crop pv e, bottom_crop doc e⟩ := by
  intro es
  induction es with
  | nil => intro prev r hr; simp [regions_go] at hr
  | cons e es ih =>
      intro prev r hr
      rw [regions_go] at hr
      rcases List.mem_cons.mp hr with hr | hr
      · exact ⟨e, List.mem_cons_self e es, prev, hr.symm ▸ rfl⟩
      · obtain ⟨e2, he2, pv, hre⟩ := ih (some e.page_number) r hr
        exact ⟨e2, List.mem_cons_of_mem e he2, pv, hre⟩

theorem regions_go_chain (doc : Doc) :
    ∀ (es : List LabelEntry) (prev : Option Nat),
      List.Chain' entry_le es → (∀ e ∈ es, 0 ≤ e.y0) →
      List.Chain' region_le (regions_go doc prev es) := by
  intro es
  induction es with
  | nil => intro prev _ _; exact List.chain'_nil
  | cons e es ih =>
      intro prev hch hnn
      rw [List.chain'_cons'] at hch
      rw [regions_go, List.chain'_cons']
      constructor
      · intro r2 hr2
        cases es with
        | nil => simp [regions_go] at hr2
        | cons e2 es2 =>
            rw [regions_go] at hr2
            simp only [List.head?_cons, Option.mem_def, Option.some.injEq] at hr2
            rw [← hr2]
            have hle : entry_le e e2 := hch.1 e2 rfl
            rcases hle with hlt | ⟨heq, hy⟩
            · exact Or.inl hlt
            · right
              refine ⟨heq, ?_⟩
              have h2 : top_crop (some e.page_number) e2 = e2.y0 := by
                unfold top_crop
                rw [if_neg]
                simp [heq]
              rw [h2]
              exact le_trans (top_crop_le prev e (hnn e (List.mem_cons_self e (e2 :: es2)))) hy
      · exact ih (some e.page_number) hch.2 fun x hx => hnn x (List.mem_cons_of_mem e hx)

/-- The single page of the degenerate document, with the second requested
label line sitting exactly at the 200-point bottom edge of the page. -/
def doc_degenerate : Doc :=
  [⟨150, 200, [⟨5, 50, 60, 60, "Bass I"⟩, ⟨5, 200, 60, 205, "Tenor II"⟩]⟩]

/-- Single requested label with an unrelated candidate line 200 points below;
variant a. -/
def doc_fallback_a : Doc :=
  [⟨150, 842, [⟨5, 100, 60, 112, "Tenor II"⟩, ⟨5, 300, 60, 310, "zzz"⟩]⟩]

/-- The same document with the unrelated line 100 points lower; variant b. -/
def doc_fallback_b : Doc :=
  [⟨150, 842, [⟨5, 100, 60, 112, "Tenor II"⟩, ⟨5, 400, 60, 410, "zzz"⟩]⟩]

/-- Claim C1 (amended): the bottom boundary of every emitted region follows
the two-case rule of lines 85-93 as written in `bottom_crop`: the top of the
first candidate line strictly below the anchor on the same source page —
any candidate line at all, not only a repeat of the same label or a
canonical-hierarchy successor — when one exists, and otherwise the anchor
top plus the 120-point fallback, clamped to the page height
(`min(page_height, anchor_top + 120)`); no shift-up term exists. -/
theorem c1_bottom_rule (doc : Doc) (norms : List String) :
    (regions_of doc norms).map Region.bottom
      = (target_labels doc norms).map (bottom_crop doc) :=
  regions_go_map_bottom doc (target_labels doc norms) none

/-- Counterexample to Claim C1 as stated: in both documents the requested
label "Tenor II" occurs exactly once and no repeat of it and no canonical
voice label occurs below it, so under the claim the fallback branch applies
and the bottom would be `anchorBottomHint + fallbackHeight - shiftUp` with
`anchorBottomHint = 112` in both runs — the same value whatever the two
configured constants are.  The code instead takes the top of the unrelated
candidate line "zzz", giving 300 in one run and 400 in the other, so no
choice of constants satisfies the claim. -/
theorem c1_counterexample :
    (regions_of doc_fallback_a ["tenorii"]).map Region.bottom = [300] ∧
    (regions_of doc_fallback_b ["tenorii"]).map Region.bottom = [400] ∧
    ¬ ∃ shiftUp fallbackHeight : ℚ,
        (300 : ℚ) = 112 + fallbackHeight - shiftUp ∧
        (400 : ℚ) = 112 + fallbackHeight - shiftUp := by
  refine ⟨by decide, by decide, ?_⟩
  rintro ⟨su, fb, h1, h2⟩
  linarith

/-- Claim C4 (amended): when every text line of the document lies inside the
vertical bounds of its page, every emitted region satisfies
`0 ≤ top < bottom ≤ page height`.  Without that proviso the guarantee fails
and the code has no rejection branch: a candidate at the bottom edge of the
page yields a degenerate region that is still emitted (see the
counterexample). -/
theorem c4_region_bounds (doc : Doc) (norms : List String)
    (hdoc : ∀ p ∈ doc, ∀ l ∈ p.lines, 0 ≤ l.y0 ∧ l.y0 < p.height) :
    ∀ r ∈ regions_of doc norms,
      0 ≤ r.top ∧ r.top < r.bottom ∧
        r.bottom ≤ page_height_of doc r.page_number := by
  intro r hr
  obtain ⟨e, he, pv, hre⟩ := regions_go_mem doc (target_labels doc norms) none r hr
  have heall := ((mem_target_labels doc norms e).mp he).1
  have heb := all_labels_bounds doc hdoc e heall
  have hbc := bottom_crop_bounds doc hdoc e heall
  rw [hre]
  exact ⟨top_crop_nonneg pv e heb.1,
    lt_of_le_of_lt (top_crop_le pv e heb.1) hbc.1, hbc.2⟩

/-- Counterexample to Claim C4 as stated: the line "Tenor II" sits exactly at
the bottom edge of its 200-point page; it is not the first target on the
page, so its top boundary is its own top (200), and with no candidate below
it the fallback bottom clamps to the page height, also 200.  The code emits
the degenerate region (1, 200, 200) with `bottom = top` — there is no branch
rejecting it. -/
theorem c4_counterexample :
    regions_of doc_degenerate ["bassi", "tenorii"] = [⟨1, 30, 200⟩, ⟨1, 200, 200⟩] ∧
    ¬ (∀ r ∈ regions_of doc_degenerate ["bassi", "tenorii"], r.top < r.bottom) := by
  exact ⟨by decide, by decide⟩

/-- Witness for C4 at a concrete in-bounds document. -/
theorem c4_region_bounds_witness :
    0 ≤ (⟨1, 0, 195⟩ : Region).top ∧
      (⟨1, 0, 195⟩ : Region).top < (⟨1, 0, 195⟩ : Region).bottom ∧
      (⟨1, 0, 195⟩ : Region).bottom
        ≤ page_height_of doc_two_pages (⟨1, 0, 195⟩ : Region).page_number :=
  c4_region_bounds doc_two_pages ["tenorii"] (by decide) ⟨1, 0, 195⟩ (by decide)

/-- Claim C6: anchors are processed in sorted `(page, y0)` order; the crops
placed onto output pages, read page by page, are exactly the region list in
that order; and (for in-range line coordinates) the emitted regions are
pairwise ordered by source page, then by top coordinate. -/
theorem c6_output_order (doc : Doc) (norms : List String) :
    List.Sorted entry_le (target_labels doc norms) ∧
    ((extract_pages doc norms).flatMap fun op => op.items.map Placement.crop)
      = (regions_of doc norms).map crop_of ∧
    ((∀ p ∈ doc, ∀ l ∈ p.lines, 0 ≤ l.y0) →
      List.Pairwise region_le (regions_of doc norms)) := by
  refine ⟨target_labels_sorted doc norms, ?_, ?_⟩
  · exact pack_go_crops _ _ _ _ le_rfl
  · intro hdoc
    have hch : List.Chain' entry_le (target_labels doc norms) :=
      (target_labels_sorted doc norms).chain'
    have hnn : ∀ e ∈ target_labels doc norms, 0 ≤ e.y0 := fun e he =>
      all_labels_y0_nonneg doc hdoc e ((mem_target_labels doc norms e).mp he).1
    exact List.chain'_iff_pairwise.mp (regions_go_chain doc (target_labels doc norms) none hch hnn)

/-- Witness for C6 at a concrete run with two regions on two source pages. -/
theorem c6_output_order_witness :
    List.Pairwise region_le (regions_of doc_two_pages ["tenorii"]) :=
  (c6_output_order doc_two_pages ["tenorii"]).2.2 (by decide)

/-- The page holds the same requested label twice. -/
def doc_repeat : Doc :=
  [⟨150, 600, [⟨5, 100, 60, 110, "Tenor II"⟩, ⟨5, 400, 60, 410, "Tenor II"⟩]⟩]

/-- Claim C5 (amended): the text-search collection keeps every matching
occurrence, not only the first per page: any candidate tuple whose
normalized text is requested ends up among the anchors, and the number of
anchors equals the number of matching candidate lines over the whole
document. -/
theorem c5_all_occurrences (doc : Doc) (norms : List String) :
    (∀ e ∈ all_labels_unsorted doc, norms.contains (normStr e.text) = true →
      e ∈ target_labels doc norms) ∧
    (target_labels doc norms).length
      = (all_labels_unsorted doc).countP fun e => norms.contains (normStr e.text) := by
  have hperm := List.perm_insertionSort entry_le (all_labels_unsorted doc)
  constructor
  · intro e he hc
    exact (mem_target_labels doc norms e).mpr ⟨(mem_all_labels doc e).mpr he, hc⟩
  · calc (target_labels doc norms).length
        = ((all_labels doc).countP fun e => norms.contains (normStr e.text)) :=
          (List.countP_eq_length_filter _ (all_labels doc)).symm
      _ = _ := hperm.countP_eq _

/-- Counterexample to Claim C5 as stated: the label "Tenor II" occurs twice
on the single page and both occurrences become anchors and regions — the
code never restricts a page to one anchor per label. -/
theorem c5_counterexample :
    target_labels doc_repeat ["tenorii"] =
      [⟨1, 100, 110, "Tenor II"⟩, ⟨1, 400, 410, "Tenor II"⟩] ∧
    ¬ (target_labels doc_repeat ["tenorii"]).length ≤ 1 ∧
    (regions_of doc_repeat ["tenorii"]).length = 2 :=
  ⟨by decide, by decide, by decide⟩

/-- Witness for C5 at a concrete occurrence. -/
theorem c5_all_occurrences_witness :
    (⟨1, 100, 110, "Tenor II"⟩ : LabelEntry) ∈ target_labels doc_repeat ["tenorii"] :=
  (c5_all_occurrences doc_repeat ["tenorii"]).1 ⟨1, 100, 110, "Tenor II"⟩
    (by decide) (by decide)

theorem filter_contains_nil :
    ∀ l : List LabelEntry,
      (l.filter fun e => (([] : List String).contains (normStr e.text))) = []
  | [] => rfl
  | e :: l => by
      rw [List.filter_cons]
      have hfalse : (([] : List String).contains (normStr e.text)) = false := rfl
      rw [hfalse]
      simp only [Bool.false_eq_true, if_false]
      exact filter_contains_nil l

theorem target_labels_nil_norms (doc : Doc) : target_labels doc [] = [] :=
  filter_contains_nil (all_labels doc)

/-- One page holding no requested label. -/
def doc_bass : Doc := [⟨150, 200, [⟨5, 50, 60, 60, "Bass I"⟩]⟩]

/-- Claim C7 (amended): with an empty label input the app body does not run
at all — nothing is reported and no output is produced; with a nonempty
input whose parsed label list is empty, the run ends in the same generic
no-match warning that a zero-matches run produces.  No distinct
empty-label-set input error exists in the code. -/
theorem c7_no_labels_outcome (doc : Doc) (s : String) :
    run_app doc "" = Outcome.idle ∧
    (s ≠ "" → label_list s = [] → run_app doc s = Outcome.no_match) := by
  constructor
  · rw [run_app, if_pos rfl]
  · intro hne hnil
    have hnorm : norm_labels s = [] := by rw [norm_labels, hnil]; rfl
    rw [run_app, if_neg hne]
    simp only [hnorm, target_labels_nil_norms, if_pos]

/-- Counterexample to Claim C7 as stated: an empty label input produces the
idle outcome, with no error report of any kind, and a comma-only input —
whose parsed label set is empty — lands in exactly the same no-match outcome
as a genuine run whose labels simply do not occur; the claimed distinct
"no labels" input error does not exist. -/
theorem c7_counterexample :
    run_app doc_bass "" = Outcome.idle ∧
    run_app doc_bass "," = Outcome.no_match ∧
    run_app doc_bass "Tenor II" = Outcome.no_match :=
  ⟨by decide, by decide, by decide⟩

/-- Witness for C7: a whitespace-and-comma input parses to no labels and
ends in the no-match warning. -/
theorem c7_no_labels_outcome_witness :
    run_app doc_bass " , " = Outcome.no_match :=
  (c7_no_labels_outcome doc_bass " , ").2 (by decide) (by decide)

/-- Claim C9: the matcher compares fully normalized strings for equality, so
with the labels "Bass I" and "Bass II" neither matches a line printed as the
other; in general the set-membership test of line 49 is exactly "some
requested label matches", and when only "Bass I" is requested every
registered anchor normalizes to "Bass I". -/
theorem c9_strict_matching (doc : Doc) :
    label_matches "Bass II" "Bass I" = false ∧
    label_matches "Bass I" "Bass II" = false ∧
    (∀ (cand : String) (labels : List String),
      (labels.map normStr).contains (normStr cand)
        = labels.any fun t => label_matches cand t) ∧
    (∀ e ∈ target_labels doc [normStr "Bass I"],
      normStr e.text = normStr "Bass I") := by
  refine ⟨by decide, by decide, ?_, ?_⟩
  · intro cand labels
    induction labels with
    | nil => rfl
    | cons t ts ih =>
        simp only [List.map_cons, List.contains_cons, List.any_cons, label_matches, ih]
  · intro e he
    have hc := ((mem_target_labels doc [normStr "Bass I"] e).mp he).2
    simpa using hc

/-- Witness for C9 at a concrete anchor. -/
theorem c9_strict_matching_witness :
    normStr (⟨1, 50, 60, "Bass I"⟩ : LabelEntry).text = normStr "Bass I" :=
  (c9_strict_matching doc_bass).2.2.2 ⟨1, 50, 60, "Bass I"⟩ (by decide)

theorem is_candidate_spec (l : Line) (h : is_candidate l = true) :
    stripStr l.text ≠ "" ∧ l.x0 < left_margin_threshold ∧
      (stripStr l.text).toList.any Char.isAlpha = true ∧
      keyword_excluded (stripStr l.text) = false := by
  unfold is_candidate at h
  simp only [Bool.and_eq_true, Bool.not_eq_true', decide_eq_true_eq,
    decide_eq_false_iff_not] at h
  exact ⟨h.1.1.1, h.1.1.2, h.1.2, h.2⟩

/-- One requested label printed 60 points from the left edge and one whose
line carries the excluded keyword "Arr.". -/
def doc_filtered : Doc :=
  [⟨150, 200, [⟨60, 50, 100, 60, "Tenor II"⟩, ⟨5, 100, 60, 110, "Arr. Bass I"⟩]⟩]

/-- Claim C10: every collected candidate tuple comes from a line that starts
left of the 50-point threshold, holds an ASCII letter and carries none of
the excluded keywords; consequently, when every line whose normalized text
is requested is either at or right of the threshold or keyword-excluded,
the run emits no region at all. -/
theorem c10_left_margin_filter (doc : Doc) (norms : List String) :
    (∀ e ∈ all_labels doc, ∃ p ∈ doc, ∃ l ∈ p.lines,
      l.x0 < left_margin_threshold ∧
      (stripStr l.text).toList.any Char.isAlpha = true ∧
      keyword_excluded (stripStr l.text) = false ∧
      e.y0 = l.y0 ∧ e.y1 = l.y1 ∧ e.text = stripStr l.text) ∧
    ((∀ p ∈ doc, ∀ l ∈ p.lines,
        norms.contains (normStr (stripStr l.text)) = true →
        left_margin_threshold ≤ l.x0 ∨ keyword_excluded (stripStr l.text) = true) →
      regions_of doc norms = []) := by
  constructor
  · intro e he
    obtain ⟨k, p, hk, l, hl, hc, hee⟩ :=
      mem_all_labels_unsorted doc e ((mem_all_labels doc e).mp he)
    obtain ⟨_, hx0, halpha, hkw⟩ := is_candidate_spec l hc
    exact ⟨p, List.get?_mem hk, l, hl, hx0, halpha, hkw,
      by rw [hee], by rw [hee], by rw [hee]⟩
  · intro hyp
    have htgt : target_labels doc norms = [] := by
      rw [List.eq_nil_iff_forall_not_mem]
      intro e he
      obtain ⟨heall, hcont⟩ := (mem_target_labels doc norms e).mp he
      obtain ⟨k, p, hk, l, hl, hc, hee⟩ :=
        mem_all_labels_unsorted doc e ((mem_all_labels doc e).mp heall)
      obtain ⟨_, hx0, _, hkw⟩ := is_candidate_spec l hc
      have htext : e.text = stripStr l.text := by rw [hee]
      rw [htext] at hcont
      rcases hyp p (List.get?_mem hk) l hl hcont with hfar | hkw2
      · exact absurd hx0 (not_lt.mpr hfar)
      · rw [hkw] at hkw2; cases hkw2
    rw [regions_of, htgt]
    rfl

/-- Witness for C10: with the requested labels only far from the margin or
keyword-excluded the run emits nothing, and a genuinely collected candidate
comes from a line passing the filter. -/
theorem c10_left_margin_filter_witness :
    regions_of doc_filtered ["tenorii", "arrbassi"] = [] ∧
    ∃ p ∈ doc_two_pages, ∃ l ∈ p.lines,
      l.x0 < left_margin_threshold ∧
      (stripStr l.text).toList.any Char.isAlpha = true ∧
      keyword_excluded (stripStr l.text) = false ∧
      (⟨1, 10, 20, "Tenor II"⟩ : LabelEntry).y0 = l.y0 ∧
      (⟨1, 10, 20, "Tenor II"⟩ : LabelEntry).y1 = l.y1 ∧
      (⟨1, 10, 20, "Tenor II"⟩ : LabelEntry).text = stripStr l.text :=
  ⟨(c10_left_margin_filter doc_filtered ["tenorii", "arrbassi"]).2 (by decide),
    (c10_left_margin_filter doc_two_pages ["tenorii"]).1 ⟨1, 10, 20, "Tenor II"⟩ (by decide)⟩

end StaffExtractor
